/-
Verification of the Monte Carlo hold'em trial engine
(src/holdem/monte_carlo_game.rs) against its specification.

The engine's external collaborators (the card type, the deck factory and
removal primitive, the hand container, the rank evaluator, the shuffle
capability) are not part of the trial-engine source; they are modelled
from the spec as parameters or small definitions, marked below.
The trial engine itself (constructors, simulate, reset, shuffle_if_needed)
is translated directly from the Rust source.
-/
import Mathlib


/-- Modelled from the spec: a Card is "one of 52 distinct playing cards",
immutable, with equality.  The rank/suit structure is never inspected by the
trial engine, so we model the card domain as `Fin 52`. -/
abbrev Card : Type := Fin 52

/-- Modelled from the spec: a hand is "an ordered sequence of Card", a
growable card sequence supporting append and truncate-to-length. -/
abbrev Hand : Type := List Card

/-- The error kinds named in the spec (§7).  The Rust source reports them as
strings; `DuplicateCard` carries the offending card, matching the formatted
duplicate-card message that names the card. -/
inductive GameError : Type where
  | InvalidHandSize : GameError
  | DuplicateCard : Card → GameError
  | BoardTooLarge : GameError
  | NoHands : GameError
  | RankingUnavailable : GameError
deriving DecidableEq

/-- Modelled from the spec: `Deck::default()` is a full standard 52-card
deck; flattening it yields an ordered, indexable, shuffleable sequence.
We model the deck directly as the list of its cards. -/
def Deck.default : List Card := List.finRange 52

/-- One validation loop of the Rust constructors: remove each card of `cs`
from the deck `d` in order; a card no longer present means it was already
removed (a duplicate across hands and board), reported as `DuplicateCard`.
Translates `if !deck.remove(*card) { return Err(...) }` iterated over `cs`. -/
def removeCards (d : List Card) (cs : List Card) : Except GameError (List Card) :=
  match cs with
  | [] => Except.ok d
  | c :: rest => if c ∈ d then removeCards (d.erase c) rest else Except.error (GameError.DuplicateCard c)

/-- The per-hand validation loop of the Rust constructors: each hand must
have exactly 2 cards (`InvalidHandSize` otherwise), and its cards are removed
from the deck with duplicate detection. -/
def removeHands (d : List Card) (hs : List Hand) : Except GameError (List Card) :=
  match hs with
  | [] => Except.ok d
  | h :: rest =>
    if h.length ≠ 2 then Except.error GameError.InvalidHandSize
    else match removeCards d h with
      | Except.error e => Except.error e
      | Except.ok d2 => removeHands d2 rest

/-- The engine state, translating `struct MonteCarloGame { deck, board,
hands, current_offset }`.  The flattened deck (card pool) is a list of
cards; `current_offset` is the deal cursor. -/
structure MonteCarloGame : Type where
  deck : List Card
  board : List Card
  hands : List Hand
  current_offset : Nat
deriving DecidableEq

/-- Translates `MonteCarloGame::new_with_hands`: validate every hand
(size 2, no duplicates) against a full default deck, flatten the remainder
into the pool, empty board, cursor at the sentinel 52. -/
def new_with_hands (hs : List Hand) : Except GameError MonteCarloGame :=
  match removeHands Deck.default hs with
  | Except.error e => Except.error e
  | Except.ok d =>
      Except.ok { deck := d, board := [], hands := hs, current_offset := 52 }

/-- Translates `MonteCarloGame::new_with_board`: additionally checks
`board.len() > 5` first (`BoardTooLarge`), then validates hands, then removes
the board cards from the deck with the same duplicate detection. -/
def new_with_board (hs : List Hand) (board : List Card) : Except GameError MonteCarloGame :=
  if board.length > 5 then Except.error GameError.BoardTooLarge
  else match removeHands Deck.default hs with
    | Except.error e => Except.error e
    | Except.ok d =>
        match removeCards d board with
        | Except.error e => Except.error e
        | Except.ok d2 =>
            Except.ok { deck := d2, board := board, hands := hs, current_offset := 52 }

/-- Translates `shuffle_if_needed`: if `current_offset + 5 > deck.len()`,
reshuffle the whole pool in place and reset the cursor to 0.  The shuffle
itself is an external random capability (spec §5), passed as a function;
theorems that need it assume it permutes its input. -/
def shuffle_if_needed (shuffle : List Card → List Card) (deck : List Card)
    (offset : Nat) : List Card × Nat :=
  if offset + 5 > deck.length then (shuffle deck, 0) else (deck, offset)

/-- The cards drawn by one trial: the slice
`deck[current_offset .. current_offset + num_cards]` taken after
`shuffle_if_needed`, with `num_cards = 5 - board.len()`. -/
def drawnCards (shuffle : List Card → List Card) (g : MonteCarloGame) : List Card :=
  (((shuffle_if_needed shuffle g.deck g.current_offset).1).drop
      (shuffle_if_needed shuffle g.deck g.current_offset).2).take (5 - g.board.length)

/-- The hands as mutated by one trial: first every board card is appended to
every hand (the first loop of `simulate`), then every drawn card is appended
to every hand (the second loop). -/
def postHands (shuffle : List Card → List Card) (g : MonteCarloGame) : List Hand :=
  (g.hands.map (fun h => h ++ g.board)).map (fun h => h ++ drawnCards shuffle g)

/-- The engine state as left by a successful draw phase of `simulate`:
possibly reshuffled pool, unchanged board, 7-card hands, cursor advanced by
`num_cards` from its post-shuffle value. -/
def afterState (shuffle : List Card → List Card) (g : MonteCarloGame) : MonteCarloGame :=
  { deck := (shuffle_if_needed shuffle g.deck g.current_offset).1
    board := g.board
    hands := postHands shuffle g
    current_offset :=
      (shuffle_if_needed shuffle g.deck g.current_offset).2 + (5 - g.board.length) }

/-- One step of Rust's `Iterator::max_by_key` fold over `(index, rank)`
pairs: the running maximum is replaced whenever the new key is ≥ the current
one, so on ties the last maximal element wins. -/
def maxStep {ρ : Type} [LinearOrder ρ] (acc : Option (Nat × ρ)) (x : Nat × ρ) :
    Option (Nat × ρ) :=
  match acc with
  | none => some x
  | some m => if m.2 ≤ x.2 then some x else some m

/-- Translates `.enumerate().max_by_key(|(_, rank)| rank)`: the maximum of a
list of `(index, rank)` pairs by rank, last maximal element on ties, `none`
on the empty list. -/
def maxByKeyLast {ρ : Type} [LinearOrder ρ] (l : List (Nat × ρ)) : Option (Nat × ρ) :=
  l.foldl maxStep none

/-- Translates `MonteCarloGame::simulate`.  The hand evaluator `rank`
(external, spec §6: "a strength-evaluation operation yielding a totally
ordered rank") and the shuffle capability are parameters.  The result is
`none` when the Rust code would panic (the slice
`deck[current_offset .. current_offset + num_cards]` is out of bounds);
otherwise `some (g2, res)` with `g2` the state after the call and `res` the
returned `Result`. -/
def simulate {ρ : Type} [LinearOrder ρ] (shuffle : List Card → List Card)
    (rank : List Card → ρ) (g : MonteCarloGame) :
    Option (MonteCarloGame × Except GameError (Nat × ρ)) :=
  if g.hands = [] then some (g, Except.error GameError.NoHands)
  else if (shuffle_if_needed shuffle g.deck g.current_offset).2 + (5 - g.board.length) ≤
      ((shuffle_if_needed shuffle g.deck g.current_offset).1).length then
    match maxByKeyLast (((postHands shuffle g).map rank).enum) with
    | none => some (afterState shuffle g, Except.error GameError.RankingUnavailable)
    | some ir => some (afterState shuffle g, Except.ok ir)
  else none

/-- Translates `MonteCarloGame::reset`: truncate every hand to its first 2
cards; deck, board and cursor untouched. -/
def reset (g : MonteCarloGame) : MonteCarloGame :=
  { g with hands := g.hands.map (fun h => h.take 2) }

/-- The pool-sufficiency invariant: the pool can satisfy one full trial after
a reshuffle.  It holds for engines built with at most 23 hands and is
preserved by `simulate` and `reset`. -/
def poolSufficient (g : MonteCarloGame) : Prop :=
  5 - g.board.length ≤ g.deck.length

/-- 24 validated two-card hands covering cards 0..47: every hand has exactly
2 cards and no card repeats, so construction succeeds, leaving a 4-card pool
(too small for the 5-card slice of a trial). -/
def hands24 : List Hand :=
  (List.finRange 24).map (fun i =>
    [⟨2 * i.1, by have h := i.isLt; omega⟩, ⟨2 * i.1 + 1, by have h := i.isLt; omega⟩])

/-- The engine produced by `new_with_hands [[0, 1]]`: a 50-card pool, empty
board, one hand, cursor at the sentinel. -/
def sampleGame : MonteCarloGame :=
  { deck := (Deck.default.erase 0).erase 1
    board := []
    hands := [[0, 1]]
    current_offset := 52 }

/-- The state of `sampleGame` after one `simulate` with the identity shuffle:
the hand has drawn pool cards 2,3,4,5,6 and the cursor sits at 5. -/
def sampleGame2 : MonteCarloGame :=
  { deck := (Deck.default.erase 0).erase 1
    board := []
    hands := [[0, 1, 2, 3, 4, 5, 6]]
    current_offset := 5 }

/-- A two-hand state used to exercise the tie-break rule. -/
def tieGame : MonteCarloGame :=
  { deck := [10, 11, 12, 13, 14]
    board := []
    hands := [[0, 1], [2, 3]]
    current_offset := 52 }

/-- The state of `tieGame` after one `simulate` with the identity shuffle. -/
def tieGame2 : MonteCarloGame :=
  { deck := [10, 11, 12, 13, 14]
    board := []
    hands := [[0, 1, 10, 11, 12, 13, 14], [2, 3, 10, 11, 12, 13, 14]]
    current_offset := 5 }

theorem removeCards_ok_perm : ∀ (cs d d' : List Card),
    removeCards d cs = Except.ok d' → (cs ++ d').Perm d := by
  intro cs
  induction cs with
  | nil =>
    intro d d' h
    simp only [removeCards, Except.ok.injEq] at h
    exact h ▸ List.Perm.refl _
  | cons c rest ih =>
    intro d d' h
    rw [removeCards] at h
    by_cases hc : c ∈ d
    · rw [if_pos hc] at h
      exact ((ih _ _ h).cons c).trans (List.perm_cons_erase hc).symm
    · rw [if_neg hc] at h
      exact absurd h (by simp)

theorem removeHands_ok_perm : ∀ (hs : List Hand) (d d' : List Card),
    removeHands d hs = Except.ok d' → (hs.flatten ++ d').Perm d := by
  intro hs
  induction hs with
  | nil =>
    intro d d' h
    simp only [removeHands, Except.ok.injEq] at h
    exact h ▸ List.Perm.refl _
  | cons h rest ih =>
    intro d d' hh
    rw [removeHands] at hh
    by_cases hl : h.length ≠ 2
    · rw [if_pos hl] at hh; exact absurd hh (by simp)
    · rw [if_neg hl] at hh
      cases hrc : removeCards d h with
      | error e => rw [hrc] at hh; exact absurd hh (by simp)
      | ok d2 =>
        rw [hrc] at hh
        have h1 := removeCards_ok_perm h d d2 hrc
        have h2 := ih d2 d' hh
        have h3 : (h :: rest).flatten ++ d' = h ++ (rest.flatten ++ d') := by
          simp [List.append_assoc]
        rw [h3]
        exact (h2.append_left h).trans h1

theorem removeHands_ok_sizes : ∀ (hs : List Hand) (d d' : List Card),
    removeHands d hs = Except.ok d' → ∀ h ∈ hs, h.length = 2 := by
  intro hs
  induction hs with
  | nil => intro d d' _ h hmem; exact absurd hmem (by simp)
  | cons h rest ih =>
    intro d d' hh h0 hmem
    rw [removeHands] at hh
    by_cases hl : h.length ≠ 2
    · rw [if_pos hl] at hh; exact absurd hh (by simp)
    · rw [if_neg hl] at hh
      cases hrc : removeCards d h with
      | error e => rw [hrc] at hh; exact absurd hh (by simp)
      | ok d2 =>
        rw [hrc] at hh
        rcases List.mem_cons.1 hmem with rfl | hmem2
        · exact not_not.mp hl
        · exact ih d2 d' hh h0 hmem2

theorem flatten_length_two : ∀ (hs : List Hand), (∀ h ∈ hs, h.length = 2) →
    hs.flatten.length = 2 * hs.length := by
  intro hs
  induction hs with
  | nil => intro _; simp
  | cons h rest ih =>
    intro hall
    have h2 : h.length = 2 := hall h (by simp)
    have hr := ih (fun x hx => hall x (List.mem_cons_of_mem _ hx))
    simp [List.length_append, h2, hr]
    ring

theorem removeCards_error_dup : ∀ (cs d : List Card) (e : GameError),
    removeCards d cs = Except.error e → ∃ c, e = GameError.DuplicateCard c := by
  intro cs
  induction cs with
  | nil => intro d e h; exact absurd h (by simp [removeCards])
  | cons c rest ih =>
    intro d e h
    rw [removeCards] at h
    by_cases hc : c ∈ d
    · rw [if_pos hc] at h; exact ih _ _ h
    · rw [if_neg hc] at h
      simp only [Except.error.injEq] at h
      exact ⟨c, h.symm⟩

theorem removeHands_error_invalid : ∀ (hs : List Hand) (d : List Card),
    removeHands d hs = Except.error GameError.InvalidHandSize →
    ∃ h ∈ hs, h.length ≠ 2 := by
  intro hs
  induction hs with
  | nil => intro d h; exact absurd h (by simp [removeHands])
  | cons h rest ih =>
    intro d hh
    rw [removeHands] at hh
    by_cases hl : h.length ≠ 2
    · exact ⟨h, by simp, hl⟩
    · rw [if_neg hl] at hh
      cases hrc : removeCards d h with
      | error e =>
        rw [hrc] at hh
        simp only [Except.error.injEq] at hh
        obtain ⟨c, hc⟩ := removeCards_error_dup h d e hrc
        rw [hh] at hc
        exact absurd hc (by simp)
      | ok d2 =>
        rw [hrc] at hh
        obtain ⟨x, hx1, hx2⟩ := ih d2 hh
        exact ⟨x, List.mem_cons_of_mem _ hx1, hx2⟩

theorem removeCards_error_count : ∀ (cs d : List Card) (c : Card),
    removeCards d cs = Except.error (GameError.DuplicateCard c) →
    c ∈ cs ∧ (2 ≤ cs.count c ∨ c ∉ d) := by
  intro cs
  induction cs with
  | nil => intro d c h; exact absurd h (by simp [removeCards])
  | cons c' rest ih =>
    intro d c h
    rw [removeCards] at h
    by_cases hc : c' ∈ d
    · rw [if_pos hc] at h
      obtain ⟨hmem, hcase⟩ := ih _ c h
      refine ⟨List.mem_cons_of_mem _ hmem, ?_⟩
      rcases hcase with hcnt | hnd
      · left
        rw [List.count_cons]
        omega
      · by_cases hee : c = c'
        · left
          have hpos : 0 < rest.count c := List.count_pos_iff.mpr hmem
          have hcc : (c' :: rest).count c = rest.count c + 1 := by
            rw [hee]
            exact List.count_cons_self c' rest
          omega
        · right
          intro hcd
          exact hnd ((List.mem_erase_of_ne hee).mpr hcd)
    · rw [if_neg hc] at h
      simp only [Except.error.injEq, GameError.DuplicateCard.injEq] at h
      subst h
      exact ⟨by simp, Or.inr hc⟩

theorem removeHands_error_count : ∀ (hs : List Hand) (d : List Card) (c : Card),
    removeHands d hs = Except.error (GameError.DuplicateCard c) →
    c ∈ hs.flatten ∧ (2 ≤ hs.flatten.count c ∨ c ∉ d) := by
  intro hs
  induction hs with
  | nil => intro d c h; exact absurd h (by simp [removeHands])
  | cons h rest ih =>
    intro d c hh
    rw [removeHands] at hh
    by_cases hl : h.length ≠ 2
    · rw [if_pos hl] at hh; exact absurd hh (by simp)
    · rw [if_neg hl] at hh
      cases hrc : removeCards d h with
      | error e =>
        rw [hrc] at hh
        simp only [Except.error.injEq] at hh
        subst hh
        obtain ⟨hmem, hcase⟩ := removeCards_error_count h d c hrc
        refine ⟨by rw [List.flatten_cons]; exact List.mem_append.mpr (Or.inl hmem), ?_⟩
        rcases hcase with hcnt | hnd
        · left
          rw [List.flatten_cons, List.count_append]
          omega
        · exact Or.inr hnd
      | ok d2 =>
        rw [hrc] at hh
        obtain ⟨hmem, hcase⟩ := ih d2 c hh
        refine ⟨by rw [List.flatten_cons]; exact List.mem_append.mpr (Or.inr hmem), ?_⟩
        rcases hcase with hcnt | hnd
        · left
          rw [List.flatten_cons, List.count_append]
          omega
        · by_cases hch : c ∈ h
          · left
            rw [List.flatten_cons, List.count_append]
            have p1 : 0 < h.count c := List.count_pos_iff.mpr hch
            have p2 : 0 < rest.flatten.count c := List.count_pos_iff.mpr hmem
            omega
          · right
            intro hcd
            have hperm := removeCards_ok_perm h d d2 hrc
            have : c ∈ h ++ d2 := hperm.mem_iff.mpr hcd
            rcases List.mem_append.1 this with h1 | h2
            · exact hch h1
            · exact hnd h2

theorem deck_default_length : Deck.default.length = 52 := by
  simp [Deck.default]

theorem new_with_board_shape : ∀ (hs : List Hand) (b : List Card) (g : MonteCarloGame),
    new_with_board hs b = Except.ok g →
    g.board = b ∧ g.hands = hs ∧ g.current_offset = 52 ∧
    (hs.flatten ++ (b ++ g.deck)).Perm Deck.default ∧ b.length ≤ 5 ∧
    (∀ h ∈ hs, h.length = 2) := by
  intro hs b g h
  rw [new_with_board] at h
  by_cases hb : b.length > 5
  · rw [if_pos hb] at h; exact absurd h (by simp)
  · rw [if_neg hb] at h
    split at h
    · exact absurd h (by simp)
    · rename_i d1 hrh
      split at h
      · exact absurd h (by simp)
      · rename_i d2 hrc
        simp only [Except.ok.injEq] at h
        subst h
        refine ⟨rfl, rfl, rfl, ?_, by omega, removeHands_ok_sizes hs _ _ hrh⟩
        have p1 := removeHands_ok_perm hs Deck.default d1 hrh
        have p2 := removeCards_ok_perm b d1 d2 hrc
        exact (p2.append_left hs.flatten).trans p1

theorem new_with_hands_eq_board : ∀ (hs : List Hand),
    new_with_hands hs = new_with_board hs [] := by
  intro hs
  rw [new_with_hands, new_with_board, if_neg (by decide)]
  cases removeHands Deck.default hs with
  | error e => rfl
  | ok d => rfl

theorem new_with_board_deck_length : ∀ (hs : List Hand) (b : List Card) (g : MonteCarloGame),
    new_with_board hs b = Except.ok g →
    g.deck.length + (2 * hs.length + b.length) = 52 := by
  intro hs b g h
  obtain ⟨_, _, _, hperm, _, hsizes⟩ := new_with_board_shape hs b g h
  have hlen := hperm.length_eq
  rw [deck_default_length] at hlen
  simp only [List.length_append] at hlen
  rw [flatten_length_two hs hsizes] at hlen
  omega

theorem shuffle_if_needed_perm : ∀ (shuffle : List Card → List Card),
    (∀ l, (shuffle l).Perm l) → ∀ (d : List Card) (off : Nat),
    ((shuffle_if_needed shuffle d off).1).Perm d := by
  intro shuffle hperm d off
  rw [shuffle_if_needed]
  split
  · exact hperm d
  · exact List.Perm.refl d

theorem shuffle_if_needed_pos : ∀ (shuffle : List Card → List Card) (d : List Card)
    (off : Nat), off + 5 > d.length → shuffle_if_needed shuffle d off = (shuffle d, 0) := by
  intro shuffle d off h
  rw [shuffle_if_needed, if_pos h]

theorem shuffle_if_needed_neg : ∀ (shuffle : List Card → List Card) (d : List Card)
    (off : Nat), ¬(off + 5 > d.length) → shuffle_if_needed shuffle d off = (d, off) := by
  intro shuffle d off h
  rw [shuffle_if_needed, if_neg h]

theorem maxStep_none {ρ : Type} [LinearOrder ρ] (x : Nat × ρ) : maxStep none x = some x := rfl

theorem maxStep_some {ρ : Type} [LinearOrder ρ] (m x : Nat × ρ) :
    maxStep (some m) x = if m.2 ≤ x.2 then some x else some m := rfl

theorem maxByKeyLast_foldl_some {ρ : Type} [LinearOrder ρ] :
    ∀ (l : List (Nat × ρ)) (a : Nat × ρ), ∃ r, l.foldl maxStep (some a) = some r := by
  intro l
  induction l with
  | nil => intro a; exact ⟨a, rfl⟩
  | cons x t ih =>
    intro a
    rw [List.foldl_cons, maxStep_some]
    by_cases hc : a.2 ≤ x.2
    · rw [if_pos hc]; exact ih x
    · rw [if_neg hc]; exact ih a

theorem maxByKeyLast_ne_none {ρ : Type} [LinearOrder ρ] (l : List (Nat × ρ)) (hne : l ≠ []) :
    ∃ r, maxByKeyLast l = some r := by
  cases l with
  | nil => exact absurd rfl hne
  | cons x t =>
    rw [maxByKeyLast, List.foldl_cons, maxStep_none]
    exact maxByKeyLast_foldl_some t x

theorem postHands_length {ρ : Type} (shuffle : List Card → List Card) (g : MonteCarloGame) :
    (postHands shuffle g).length = g.hands.length := by
  simp [postHands]

theorem simulate_some_cases {ρ : Type} [LinearOrder ρ] :
    ∀ (shuffle : List Card → List Card) (rank : List Card → ρ)
    (g g2 : MonteCarloGame) (res : Except GameError (Nat × ρ)),
    simulate shuffle rank g = some (g2, res) →
    (g.hands = [] ∧ g2 = g ∧ res = Except.error GameError.NoHands) ∨
    (g.hands ≠ [] ∧ g2 = afterState shuffle g ∧
      (shuffle_if_needed shuffle g.deck g.current_offset).2 + (5 - g.board.length) ≤
        ((shuffle_if_needed shuffle g.deck g.current_offset).1).length ∧
      ∃ w, res = Except.ok w ∧
        maxByKeyLast (((postHands shuffle g).map rank).enum) = some w) := by
  intro shuffle rank g g2 res h
  rw [simulate] at h
  by_cases h0 : g.hands = []
  · rw [if_pos h0] at h
    simp only [Option.some.injEq, Prod.mk.injEq] at h
    exact Or.inl ⟨h0, h.1.symm, h.2.symm⟩
  · rw [if_neg h0] at h
    by_cases h1 : (shuffle_if_needed shuffle g.deck g.current_offset).2 +
        (5 - g.board.length) ≤ ((shuffle_if_needed shuffle g.deck g.current_offset).1).length
    · rw [if_pos h1] at h
      have hne : (((postHands shuffle g).map rank).enum) ≠ [] := by
        have hlen : ((((postHands shuffle g).map rank).enum)).length = g.hands.length := by
          simp [postHands]
        intro hcon
        rw [hcon] at hlen
        simp only [List.length_nil] at hlen
        exact h0 (List.length_eq_zero.mp hlen.symm)
      obtain ⟨w, hw⟩ := maxByKeyLast_ne_none _ hne
      rw [hw] at h
      simp only [Option.some.injEq, Prod.mk.injEq] at h
      exact Or.inr ⟨h0, h.1.symm, h1, w, h.2.symm, hw⟩
    · rw [if_neg h1] at h
      exact absurd h (by simp)

theorem simulate_ok_elim {ρ : Type} [LinearOrder ρ] :
    ∀ (shuffle : List Card → List Card) (rank : List Card → ρ)
    (g g2 : MonteCarloGame) (w : Nat × ρ),
    simulate shuffle rank g = some (g2, Except.ok w) →
    g.hands ≠ [] ∧ g2 = afterState shuffle g ∧
    (shuffle_if_needed shuffle g.deck g.current_offset).2 + (5 - g.board.length) ≤
      ((shuffle_if_needed shuffle g.deck g.current_offset).1).length ∧
    maxByKeyLast (((postHands shuffle g).map rank).enum) = some w := by
  intro shuffle rank g g2 w h
  rcases simulate_some_cases shuffle rank g g2 (Except.ok w) h with
    ⟨_, _, hres⟩ | ⟨h0, hg2, h1, w', hres, hmax⟩
  · exact absurd hres (by simp)
  · simp only [Except.ok.injEq] at hres
    exact ⟨h0, hg2, h1, hres ▸ hmax⟩

theorem simulate_ne_none_of {ρ : Type} [LinearOrder ρ] :
    ∀ (shuffle : List Card → List Card) (rank : List Card → ρ) (g : MonteCarloGame),
    (g.hands = [] ∨ (shuffle_if_needed shuffle g.deck g.current_offset).2 +
      (5 - g.board.length) ≤ ((shuffle_if_needed shuffle g.deck g.current_offset).1).length) →
    simulate shuffle rank g ≠ none := by
  intro shuffle rank g h
  rw [simulate]
  by_cases h0 : g.hands = []
  · rw [if_pos h0]; simp
  · rw [if_neg h0]
    rcases h with h | h1
    · exact absurd h h0
    · rw [if_pos h1]
      cases maxByKeyLast (((postHands shuffle g).map rank).enum) with
      | none => simp
      | some ir => simp

theorem enumFrom_fst_le {α : Type} : ∀ (l : List α) (n : Nat) (x : Nat × α),
    x ∈ l.enumFrom n → n ≤ x.1 := by
  intro l
  induction l with
  | nil => intro n x hx; exact absurd hx (by simp)
  | cons a t ih =>
    intro n x hx
    rcases List.mem_cons.1 hx with rfl | hx2
    · exact Nat.le_refl n
    · exact Nat.le_of_succ_le (ih (n + 1) x hx2)

theorem enumFrom_pairwise {α : Type} : ∀ (l : List α) (n : Nat),
    (l.enumFrom n).Pairwise (fun p q => p.1 < q.1) := by
  intro l
  induction l with
  | nil => intro n; simp
  | cons a t ih =>
    intro n
    refine List.Pairwise.cons ?_ (ih (n + 1))
    intro x hx
    exact Nat.lt_of_succ_le (enumFrom_fst_le t (n + 1) x hx)

theorem get_mem_enumFrom {α : Type} : ∀ (l : List α) (n j : Nat) (hj : j < l.length),
    (n + j, l.get ⟨j, hj⟩) ∈ l.enumFrom n := by
  intro l
  induction l with
  | nil => intro n j hj; exact absurd hj (by simp)
  | cons a t ih =>
    intro n j hj
    cases j with
    | zero => simp
    | succ j' =>
      have hj' : j' < t.length := Nat.lt_of_succ_lt_succ hj
      have hmem := ih (n + 1) j' hj'
      have harith : n + (j' + 1) = (n + 1) + j' := by omega
      rw [harith]
      exact List.mem_cons_of_mem _ hmem

theorem mem_enumFrom_get {α : Type} : ∀ (l : List α) (n : Nat) (x : Nat × α),
    x ∈ l.enumFrom n →
    ∃ j, ∃ hj : j < l.length, x = (n + j, l.get ⟨j, hj⟩) := by
  intro l
  induction l with
  | nil => intro n x hx; exact absurd hx (by simp)
  | cons a t ih =>
    intro n x hx
    rcases List.mem_cons.1 hx with rfl | hx2
    · exact ⟨0, by simp, by simp⟩
    · obtain ⟨j, hj, hx⟩ := ih (n + 1) x hx2
      refine ⟨j + 1, by simpa using Nat.succ_lt_succ hj, ?_⟩
      rw [hx]
      have harith : (n + 1) + j = n + (j + 1) := by omega
      rw [harith]
      rfl

theorem foldl_maxStep_acc_le {ρ : Type} [LinearOrder ρ] :
    ∀ (l : List (Nat × ρ)) (a res : Nat × ρ),
    l.foldl maxStep (some a) = some res → a.2 ≤ res.2 := by
  intro l
  induction l with
  | nil =>
    intro a res h
    simp only [List.foldl_nil, Option.some.injEq] at h
    exact le_of_eq (by rw [h])
  | cons x t ih =>
    intro a res h
    rw [List.foldl_cons, maxStep_some] at h
    by_cases hc : a.2 ≤ x.2
    · rw [if_pos hc] at h
      exact le_trans hc (ih x res h)
    · rw [if_neg hc] at h
      exact ih a res h

theorem foldl_maxStep_all_le {ρ : Type} [LinearOrder ρ] :
    ∀ (l : List (Nat × ρ)) (a res : Nat × ρ),
    l.foldl maxStep (some a) = some res → ∀ x ∈ l, x.2 ≤ res.2 := by
  intro l
  induction l with
  | nil => intro a res _ x hx; exact absurd hx (by simp)
  | cons y t ih =>
    intro a res h x hx
    rw [List.foldl_cons, maxStep_some] at h
    by_cases hc : a.2 ≤ y.2
    · rw [if_pos hc] at h
      rcases List.mem_cons.1 hx with rfl | hx2
      · exact foldl_maxStep_acc_le t x res h
      · exact ih y res h x hx2
    · rw [if_neg hc] at h
      rcases List.mem_cons.1 hx with rfl | hx2
      · exact le_trans (le_of_lt (lt_of_not_le hc)) (foldl_maxStep_acc_le t a res h)
      · exact ih a res h x hx2

theorem foldl_maxStep_mem {ρ : Type} [LinearOrder ρ] :
    ∀ (l : List (Nat × ρ)) (a res : Nat × ρ),
    l.foldl maxStep (some a) = some res → res = a ∨ res ∈ l := by
  intro l
  induction l with
  | nil =>
    intro a res h
    simp only [List.foldl_nil, Option.some.injEq] at h
    exact Or.inl h.symm
  | cons y t ih =>
    intro a res h
    rw [List.foldl_cons, maxStep_some] at h
    by_cases hc : a.2 ≤ y.2
    · rw [if_pos hc] at h
      rcases ih y res h with rfl | hres
      · exact Or.inr (by simp)
      · exact Or.inr (List.mem_cons_of_mem _ hres)
    · rw [if_neg hc] at h
      rcases ih a res h with rfl | hres
      · exact Or.inl rfl
      · exact Or.inr (List.mem_cons_of_mem _ hres)

theorem foldl_maxStep_tie {ρ : Type} [LinearOrder ρ] :
    ∀ (l : List (Nat × ρ)) (a res : Nat × ρ),
    l.Pairwise (fun p q => p.1 < q.1) → (∀ x ∈ l, a.1 < x.1) →
    l.foldl maxStep (some a) = some res →
    ∀ x ∈ l, x.2 = res.2 → x.1 ≤ res.1 := by
  intro l
  induction l with
  | nil => intro a res _ _ _ x hx; exact absurd hx (by simp)
  | cons y t ih =>
    intro a res hpw hacc h x hx htied
    rw [List.foldl_cons, maxStep_some] at h
    obtain ⟨hy_all, hpw_t⟩ := List.pairwise_cons.1 hpw
    by_cases hc : a.2 ≤ y.2
    · rw [if_pos hc] at h
      rcases List.mem_cons.1 hx with rfl | hx2
      · rcases foldl_maxStep_mem t x res h with rfl | hres
        · exact Nat.le_refl _
        · exact Nat.le_of_lt (hy_all res hres)
      · exact ih y res hpw_t hy_all h x hx2 htied
    · rw [if_neg hc] at h
      rcases List.mem_cons.1 hx with rfl | hx2
      · have h1 : a.2 ≤ res.2 := foldl_maxStep_acc_le t a res h
        have h2 : x.2 < a.2 := lt_of_not_le hc
        rw [htied] at h2
        exact absurd h1 (not_le_of_lt h2)
      · exact ih a res hpw_t (fun z hz => hacc z (List.mem_cons_of_mem _ hz)) h x hx2 htied

theorem get_index_cast {α : Type} (l : List α) (i j : Nat) (hij : i = j)
    (hi : i < l.length) (hj : j < l.length) : l.get ⟨i, hi⟩ = l.get ⟨j, hj⟩ := by
  subst hij
  rfl

theorem maxByKeyLast_enum_spec {ρ : Type} [LinearOrder ρ] :
    ∀ (ranks : List ρ) (i : Nat) (r : ρ),
    maxByKeyLast ranks.enum = some (i, r) →
    ∃ hi : i < ranks.length, ranks.get ⟨i, hi⟩ = r ∧
      (∀ j, ∀ hj : j < ranks.length, ranks.get ⟨j, hj⟩ ≤ r) ∧
      (∀ j, ∀ hj : j < ranks.length, ranks.get ⟨j, hj⟩ = r → j ≤ i) := by
  intro ranks i r h
  cases ranks with
  | nil => exact absurd h (by simp [maxByKeyLast])
  | cons r0 rest =>
    have henum : (r0 :: rest).enum = (0, r0) :: rest.enumFrom 1 := rfl
    rw [maxByKeyLast, henum, List.foldl_cons, maxStep_none] at h
    have hub : ∀ x ∈ rest.enumFrom 1, x.2 ≤ r :=
      fun x hx => foldl_maxStep_all_le _ _ _ h x hx
    have hacc : r0 ≤ r := foldl_maxStep_acc_le _ _ _ h
    have htie := foldl_maxStep_tie (rest.enumFrom 1) (0, r0) (i, r)
      (enumFrom_pairwise rest 1)
      (fun x hx => Nat.lt_of_lt_of_le Nat.zero_lt_one (enumFrom_fst_le rest 1 x hx)) h
    have hmain : ∃ hi : i < (r0 :: rest).length, (r0 :: rest).get ⟨i, hi⟩ = r := by
      rcases foldl_maxStep_mem (rest.enumFrom 1) (0, r0) (i, r) h with heq | hmem2
      · have hi0 : i = 0 := congrArg Prod.fst heq
        have hr0 : r = r0 := (congrArg Prod.snd heq :)
        subst hi0
        refine ⟨by simp, ?_⟩
        rw [hr0]
        rfl
      · obtain ⟨j, hj, hx⟩ := mem_enumFrom_get rest 1 (i, r) hmem2
        have hi1 : i = 1 + j := congrArg Prod.fst hx
        have hr1 : r = rest.get ⟨j, hj⟩ := (congrArg Prod.snd hx :)
        have hi : i < (r0 :: rest).length := by simp only [List.length_cons]; omega
        refine ⟨hi, ?_⟩
        have hj1 : j + 1 < (r0 :: rest).length := by simp only [List.length_cons]; omega
        have hcast := get_index_cast (r0 :: rest) i (j + 1) (by omega) hi hj1
        rw [hcast, hr1]
        rfl
    obtain ⟨hi, hgi⟩ := hmain
    refine ⟨hi, hgi, ?_, ?_⟩
    · intro j hj
      cases j with
      | zero => exact hacc
      | succ j' =>
        have hj' : j' < rest.length := by
          simp only [List.length_cons] at hj
          omega
        exact hub _ (get_mem_enumFrom rest 1 j' hj')
    · intro j hj hgr
      cases j with
      | zero => exact Nat.zero_le i
      | succ j' =>
        have hj' : j' < rest.length := by
          simp only [List.length_cons] at hj
          omega
        have := htie _ (get_mem_enumFrom rest 1 j' hj') hgr
        omega

theorem take_two_append : ∀ (h b dr : List Card), h.length = 2 →
    ((h ++ b) ++ dr).take 2 = h := by
  intro h b dr h2
  rw [List.append_assoc, List.take_append_eq_append_take]
  have hsub : 2 - h.length = 0 := by omega
  have ht1 : h.take 2 = h := by
    rw [← h2]
    exact List.take_length h
  rw [ht1, hsub, List.take_zero, List.append_nil]

theorem map_take2_id : ∀ (hs : List Hand) (b dr : List Card), (∀ h ∈ hs, h.length = 2) →
    ((hs.map (fun h => h ++ b)).map (fun h => h ++ dr)).map (fun h => h.take 2) = hs := by
  intro hs b dr
  induction hs with
  | nil => intro _; rfl
  | cons h t ih =>
    intro hall
    have h2 : h.length = 2 := hall h (by simp)
    have ht := ih (fun x hx => hall x (List.mem_cons_of_mem _ hx))
    simp only [List.map_cons, List.cons.injEq]
    exact ⟨take_two_append h b dr h2, ht⟩

theorem take_drop_disjoint {α : Type} : ∀ (l : List α) (a n b k : Nat), l.Nodup →
    a + n ≤ b → ∀ c ∈ (l.drop b).take k, c ∉ (l.drop a).take n := by
  intro l a n b k hnd hab c hc2 hc1
  have hx : (l.drop a).Nodup := List.Nodup.sublist (List.drop_sublist a l) hnd
  have hnd2 : ((l.drop a).take n ++ l.drop (a + n)).Nodup := by
    rw [List.drop_take_append_drop]
    exact hx
  have hdisj := List.disjoint_of_nodup_append hnd2
  have hdropb : l.drop b = (l.drop (a + n)).drop (b - (a + n)) := by
    rw [List.drop_drop]
    congr 1
    omega
  have hc2b : c ∈ l.drop (a + n) := by
    have h1 : c ∈ l.drop b := (List.take_sublist k _).subset hc2
    rw [hdropb] at h1
    exact (List.drop_sublist _ _).subset h1
  exact hdisj hc1 hc2b

theorem get_map_at {α β : Type} (f : α → β) (l : List α) (j : Nat)
    (hj : j < (l.map f).length) (hj2 : j < l.length) :
    (l.map f).get ⟨j, hj⟩ = f (l.get ⟨j, hj2⟩) := by
  simp [List.get_eq_getElem, List.getElem_map]

theorem new_with_board_error_elim : ∀ (hs : List Hand) (b : List Card) (e : GameError),
    new_with_board hs b = Except.error e →
    (e = GameError.BoardTooLarge ∧ b.length > 5) ∨
    (¬b.length > 5 ∧ removeHands Deck.default hs = Except.error e) ∨
    (¬b.length > 5 ∧ ∃ d1, removeHands Deck.default hs = Except.ok d1 ∧
      removeCards d1 b = Except.error e) := by
  intro hs b e h
  rw [new_with_board] at h
  by_cases hb : b.length > 5
  · rw [if_pos hb] at h
    simp only [Except.error.injEq] at h
    exact Or.inl ⟨h.symm, hb⟩
  · rw [if_neg hb] at h
    split at h
    · rename_i e2 hrh
      simp only [Except.error.injEq] at h
      exact Or.inr (Or.inl ⟨hb, h ▸ hrh⟩)
    · rename_i d1 hrh
      split at h
      · rename_i e2 hrc
        simp only [Except.error.injEq] at h
        exact Or.inr (Or.inr ⟨hb, d1, hrh, h ▸ hrc⟩)
      · rename_i d2 hrc
        exact absurd h (by simp)

/-- C7: a successful `simulate` on a Ready engine (every hand holding exactly
its 2 hole cards, board of at most 5 cards) leaves every hand with exactly
7 cards: 2 + board.length + (5 - board.length). -/
theorem C7_seven_cards {ρ : Type} [LinearOrder ρ] :
    ∀ (shuffle : List Card → List Card) (rank : List Card → ρ)
    (g g2 : MonteCarloGame) (w : Nat × ρ),
    (∀ h ∈ g.hands, h.length = 2) → g.board.length ≤ 5 →
    simulate shuffle rank g = some (g2, Except.ok w) →
    ∀ h ∈ g2.hands, h.length = 7 := by
  intro shuffle rank g g2 w hready hboard hsim h hmem
  obtain ⟨hne, hg2, hguard, hmax⟩ := simulate_ok_elim shuffle rank g g2 w hsim
  subst hg2
  have hdlen : (drawnCards shuffle g).length = 5 - g.board.length := by
    rw [drawnCards, List.length_take, List.length_drop]
    omega
  have hmem2 : h ∈ postHands shuffle g := hmem
  rw [postHands] at hmem2
  obtain ⟨x, hx, hxh⟩ := List.mem_map.1 hmem2
  obtain ⟨y, hy, hyx⟩ := List.mem_map.1 hx
  subst hxh
  subst hyx
  simp only [List.length_append]
  have h2 := hready y hy
  omega

/-- C7 witness: a concrete Ready one-hand engine; after the trial its hand
has exactly 7 cards. -/
theorem C7_witness : (sampleGame2.hands.get ⟨0, by decide⟩).length = 7 :=
  C7_seven_cards id (fun h : List Card => h.length) sampleGame sampleGame2 (0, 7)
    (by decide) (by decide) rfl (sampleGame2.hands.get ⟨0, by decide⟩) (by decide)

/-- C8: `reset` truncates every hand to its first 2 cards and changes nothing
else — pool contents and order, cursor and board are untouched; after a trial
on a Ready engine the truncation restores exactly the original hole cards in
value and order. -/
theorem C8_reset_frame {ρ : Type} [LinearOrder ρ] :
    ∀ (shuffle : List Card → List Card) (rank : List Card → ρ)
    (g g2 : MonteCarloGame) (w : Nat × ρ),
    ((reset g).deck = g.deck ∧ (reset g).board = g.board ∧
     (reset g).current_offset = g.current_offset ∧
     (reset g).hands = g.hands.map (fun h => h.take 2)) ∧
    ((∀ h ∈ g.hands, h.length = 2) →
      simulate shuffle rank g = some (g2, Except.ok w) → (reset g2).hands = g.hands) := by
  intro shuffle rank g g2 w
  refine ⟨⟨rfl, rfl, rfl, rfl⟩, ?_⟩
  intro hready hsim
  obtain ⟨hne, hg2, hguard, hmax⟩ := simulate_ok_elim shuffle rank g g2 w hsim
  subst hg2
  show (postHands shuffle g).map (fun h => h.take 2) = g.hands
  rw [postHands]
  exact map_take2_id g.hands g.board (drawnCards shuffle g) hready

/-- C8 witness: the reset frame conditions evaluated on a concrete post-trial
state, and recovery of the concrete hole cards. -/
theorem C8_witness :
    ((reset sampleGame2).deck = sampleGame2.deck ∧
     (reset sampleGame2).board = sampleGame2.board ∧
     (reset sampleGame2).current_offset = sampleGame2.current_offset ∧
     (reset sampleGame2).hands = sampleGame2.hands.map (fun h => h.take 2)) ∧
    (reset sampleGame2).hands = sampleGame.hands :=
  ⟨(C8_reset_frame id (fun h : List Card => h.length) sampleGame2 sampleGame2 (0, 7)).1,
   (C8_reset_frame id (fun h : List Card => h.length) sampleGame sampleGame2 (0, 7)).2
     (by decide) rfl⟩

/-- C9: `simulate` on an engine with zero hands returns the `NoHands` error
and mutates no state (the returned state is the input state); with at least
one hand the defensive `RankingUnavailable` branch is unreachable: no call
ever returns that error. -/
theorem C9_nohands_guard {ρ : Type} [LinearOrder ρ] :
    ∀ (shuffle : List Card → List Card) (rank : List Card → ρ) (g : MonteCarloGame),
    (g.hands = [] → simulate shuffle rank g = some (g, Except.error GameError.NoHands)) ∧
    (g.hands ≠ [] → ∀ g2 : MonteCarloGame,
      simulate shuffle rank g ≠ some (g2, Except.error GameError.RankingUnavailable)) := by
  intro shuffle rank g
  constructor
  · intro h
    rw [simulate, if_pos h]
  · intro hne g2 hcon
    rcases simulate_some_cases shuffle rank g g2 _ hcon with
      ⟨h0, _, _⟩ | ⟨_, _, _, w, hres, _⟩
    · exact hne h0
    · exact absurd hres (by simp)

/-- C9 witness: the zero-hand engine gets `NoHands` with unchanged state, and
a concrete two-hand engine can never report `RankingUnavailable`. -/
theorem C9_witness :
    simulate id (fun h : List Card => h.length)
        { deck := [], board := [], hands := [], current_offset := 0 } =
      some ({ deck := [], board := [], hands := [], current_offset := 0 },
        Except.error GameError.NoHands) ∧
    (∀ g2 : MonteCarloGame, simulate id (fun h : List Card => h.length) tieGame ≠
      some (g2, Except.error GameError.RankingUnavailable)) :=
  ⟨(C9_nohands_guard id (fun h : List Card => h.length)
      { deck := [], board := [], hands := [], current_offset := 0 }).1 rfl,
   (C9_nohands_guard id (fun h : List Card => h.length) tieGame).2 (by decide)⟩

/-- C10: constructing from zero hands succeeds, giving an engine with an
empty board, the full 52-card pool and the cursor at the sentinel 52; the
zero-hands condition is rejected only later, when `simulate` is called. -/
theorem C10_empty_construction {ρ : Type} [LinearOrder ρ] :
    ∀ (shuffle : List Card → List Card) (rank : List Card → ρ),
    new_with_hands ([] : List Hand) =
      Except.ok { deck := Deck.default, board := [], hands := [], current_offset := 52 } ∧
    (∀ g : MonteCarloGame, new_with_hands ([] : List Hand) = Except.ok g →
      simulate shuffle rank g = some (g, Except.error GameError.NoHands)) := by
  intro shuffle rank
  refine ⟨rfl, ?_⟩
  intro g hg
  have h1 : (Except.ok { deck := Deck.default, board := [], hands := [], current_offset := 52 } :
      Except GameError MonteCarloGame) = Except.ok g := by
    rw [← hg]
    rfl
  simp only [Except.ok.injEq] at h1
  have hhands : g.hands = [] := by rw [← h1]
  rw [simulate, if_pos hhands]

/-- C10 witness: the empty construction evaluated concretely, and the
`NoHands` rejection of `simulate` on the resulting engine. -/
theorem C10_witness :
    new_with_hands ([] : List Hand) =
      Except.ok { deck := Deck.default, board := [], hands := [], current_offset := 52 } ∧
    simulate id (fun h : List Card => h.length)
        { deck := Deck.default, board := [], hands := [], current_offset := 52 } =
      some ({ deck := Deck.default, board := [], hands := [], current_offset := 52 },
        Except.error GameError.NoHands) :=
  ⟨(C10_empty_construction id (fun h : List Card => h.length)).1,
   (C10_empty_construction id (fun h : List Card => h.length)).2 _ rfl⟩

/-- C3: within a `simulate` call on a nonempty hand set, the pool is
reshuffled in place and the cursor reset to 0 exactly when
`cursor + 5 > pool.length` (the check always uses the full five-card
requirement, regardless of `5 - board.length`); and any engine produced by a
constructor has cursor 52 ≥ pool length, so its first `simulate` call always
reshuffles before drawing. -/
theorem C3_shuffle_scheduling {ρ : Type} [LinearOrder ρ] :
    ∀ (shuffle : List Card → List Card) (rank : List Card → ρ)
    (g g2 : MonteCarloGame) (res : Except GameError (Nat × ρ))
    (hs : List Hand) (b : List Card) (g0 : MonteCarloGame),
    g.hands ≠ [] → simulate shuffle rank g = some (g2, res) →
    new_with_board hs b = Except.ok g0 →
    (g.current_offset + 5 > g.deck.length →
      g2.deck = shuffle g.deck ∧ g2.current_offset = 0 + (5 - g.board.length)) ∧
    (g.current_offset + 5 ≤ g.deck.length →
      g2.deck = g.deck ∧ g2.current_offset = g.current_offset + (5 - g.board.length)) ∧
    (g0.current_offset = 52 ∧ g0.current_offset + 5 > g0.deck.length) := by
  intro shuffle rank g g2 res hs b g0 hne hsim hctor
  rcases simulate_some_cases shuffle rank g g2 res hsim with ⟨h0, _, _⟩ | ⟨_, hg2, _, _⟩
  · exact absurd h0 hne
  · subst hg2
    refine ⟨?_, ?_, ?_⟩
    · intro hgt
      constructor
      · show (shuffle_if_needed shuffle g.deck g.current_offset).1 = shuffle g.deck
        rw [shuffle_if_needed_pos shuffle g.deck g.current_offset hgt]
      · show (shuffle_if_needed shuffle g.deck g.current_offset).2 + (5 - g.board.length) =
          0 + (5 - g.board.length)
        rw [shuffle_if_needed_pos shuffle g.deck g.current_offset hgt]
    · intro hle
      have hngt : ¬(g.current_offset + 5 > g.deck.length) := by omega
      constructor
      · show (shuffle_if_needed shuffle g.deck g.current_offset).1 = g.deck
        rw [shuffle_if_needed_neg shuffle g.deck g.current_offset hngt]
      · show (shuffle_if_needed shuffle g.deck g.current_offset).2 + (5 - g.board.length) =
          g.current_offset + (5 - g.board.length)
        rw [shuffle_if_needed_neg shuffle g.deck g.current_offset hngt]
    · obtain ⟨_, _, hoff, _, _, _⟩ := new_with_board_shape hs b g0 hctor
      have hlen := new_with_board_deck_length hs b g0 hctor
      exact ⟨hoff, by omega⟩

/-- C3 witness: a concrete call whose state has cursor 52 over a 5-card pool
(so it reshuffles), together with the constructed engine `sampleGame`. -/
theorem C3_witness :
    (tieGame.current_offset + 5 > tieGame.deck.length →
      tieGame2.deck = id tieGame.deck ∧
      tieGame2.current_offset = 0 + (5 - tieGame.board.length)) ∧
    (tieGame.current_offset + 5 ≤ tieGame.deck.length →
      tieGame2.deck = tieGame.deck ∧
      tieGame2.current_offset = tieGame.current_offset + (5 - tieGame.board.length)) ∧
    (sampleGame.current_offset = 52 ∧
      sampleGame.current_offset + 5 > sampleGame.deck.length) :=
  C3_shuffle_scheduling id (fun h : List Card => (0 : Nat)) tieGame tieGame2
    (Except.ok (1, 0)) [[0, 1]] [] sampleGame (by decide) rfl rfl

/-- C5: a successful construction partitions the 52 cards: hole cards, board
and pool together are a permutation of the full deck (hence pairwise
disjoint, covering all 52 exactly once); and the partition is preserved for
the engine's lifetime: `simulate` only permutes the pool in place and keeps
the board, and `reset` leaves pool and board exactly unchanged. -/
theorem C5_partition {ρ : Type} [LinearOrder ρ] :
    ∀ (shuffle : List Card → List Card) (rank : List Card → ρ)
    (hs : List Hand) (b : List Card) (g0 : MonteCarloGame),
    (∀ l : List Card, (shuffle l).Perm l) → new_with_board hs b = Except.ok g0 →
    (hs.flatten ++ b ++ g0.deck).Perm Deck.default ∧
    (hs.flatten ++ b ++ g0.deck).Nodup ∧
    (∀ (g g2 : MonteCarloGame) (res : Except GameError (Nat × ρ)),
      simulate shuffle rank g = some (g2, res) →
      g2.deck.Perm g.deck ∧ g2.board = g.board) ∧
    (∀ g : MonteCarloGame, (reset g).deck = g.deck ∧ (reset g).board = g.board) := by
  intro shuffle rank hs b g0 hshuffle hctor
  obtain ⟨_, _, _, hperm, _, _⟩ := new_with_board_shape hs b g0 hctor
  have hperm2 : (hs.flatten ++ b ++ g0.deck).Perm Deck.default := by
    rw [List.append_assoc]
    exact hperm
  refine ⟨hperm2, ?_, ?_, ?_⟩
  · exact hperm2.nodup_iff.mpr (List.nodup_finRange 52)
  · intro g g2 res hsim
    rcases simulate_some_cases shuffle rank g g2 res hsim with ⟨_, hg2, _⟩ | ⟨_, hg2, _, _⟩
    · subst hg2
      exact ⟨List.Perm.refl _, rfl⟩
    · subst hg2
      constructor
      · show ((shuffle_if_needed shuffle g.deck g.current_offset).1).Perm g.deck
        exact shuffle_if_needed_perm shuffle hshuffle g.deck g.current_offset
      · rfl
  · intro g
    exact ⟨rfl, rfl⟩

/-- C5 witness: the partition and preservation facts instantiated at the
concretely constructed `sampleGame` with the identity shuffle. -/
theorem C5_witness :
    ([[(0 : Card), 1]].flatten ++ [] ++ sampleGame.deck).Perm Deck.default ∧
    ([[(0 : Card), 1]].flatten ++ [] ++ sampleGame.deck).Nodup ∧
    (∀ (g g2 : MonteCarloGame) (res : Except GameError (Nat × Nat)),
      simulate id (fun h : List Card => h.length) g = some (g2, res) →
      g2.deck.Perm g.deck ∧ g2.board = g.board) ∧
    (∀ g : MonteCarloGame, (reset g).deck = g.deck ∧ (reset g).board = g.board) :=
  C5_partition id (fun h : List Card => h.length) [[0, 1]] [] sampleGame
    (fun l => List.Perm.refl l) rfl

theorem removeCards_ok_of_nodup : ∀ (cs d : List Card), cs.Nodup → (∀ c ∈ cs, c ∈ d) →
    ∃ d2, removeCards d cs = Except.ok d2 := by
  intro cs
  induction cs with
  | nil => intro d _ _; exact ⟨d, rfl⟩
  | cons c rest ih =>
    intro d hnd hsub
    have hc : c ∈ d := hsub c (by simp)
    rw [removeCards, if_pos hc]
    refine ih (d.erase c) (List.Nodup.of_cons hnd) ?_
    intro x hx
    have hxd : x ∈ d := hsub x (List.mem_cons_of_mem _ hx)
    have hxc : x ≠ c := by
      intro heq
      subst heq
      exact (List.nodup_cons.1 hnd).1 hx
    exact (List.mem_erase_of_ne hxc).mpr hxd

theorem removeHands_invalid_of : ∀ (hs : List Hand) (d : List Card),
    hs.flatten.Nodup → (∀ c ∈ hs.flatten, c ∈ d) → (∃ h ∈ hs, h.length ≠ 2) →
    removeHands d hs = Except.error GameError.InvalidHandSize := by
  intro hs
  induction hs with
  | nil =>
    intro d _ _ hbad
    rcases hbad with ⟨h, hm, _⟩
    exact absurd hm (by simp)
  | cons h rest ih =>
    intro d hnd hsub hbad
    by_cases hl : h.length ≠ 2
    · rw [removeHands, if_pos hl]
    · rw [removeHands, if_neg hl]
      rw [List.flatten_cons] at hnd hsub
      obtain ⟨hndh, hndrest, hdisj⟩ := List.nodup_append.1 hnd
      obtain ⟨d2, hd2⟩ := removeCards_ok_of_nodup h d hndh
        (fun c hc => hsub c (List.mem_append.mpr (Or.inl hc)))
      rw [hd2]
      have hbad2 : ∃ x ∈ rest, x.length ≠ 2 := by
        rcases hbad with ⟨x, hxm, hxne⟩
        rcases List.mem_cons.1 hxm with rfl | hxm2
        · exact absurd hxne (by simpa using hl)
        · exact ⟨x, hxm2, hxne⟩
      refine ih d2 hndrest ?_ hbad2
      intro c hc
      have hcd : c ∈ d := hsub c (List.mem_append.mpr (Or.inr hc))
      have hch : c ∉ h := fun hch => hdisj hch hc
      have hfull : c ∈ h ++ d2 := (removeCards_ok_perm h d d2 hd2).mem_iff.mpr hcd
      rcases List.mem_append.1 hfull with h1 | h2
      · exact absurd h1 hch
      · exact h2

theorem removeHands_error_cases : ∀ (hs : List Hand) (d : List Card) (e : GameError),
    removeHands d hs = Except.error e →
    e = GameError.InvalidHandSize ∨ ∃ c, e = GameError.DuplicateCard c := by
  intro hs
  induction hs with
  | nil => intro d e h; exact absurd h (by simp [removeHands])
  | cons h rest ih =>
    intro d e hh
    rw [removeHands] at hh
    by_cases hl : h.length ≠ 2
    · rw [if_pos hl] at hh
      simp only [Except.error.injEq] at hh
      exact Or.inl hh.symm
    · rw [if_neg hl] at hh
      cases hrc : removeCards d h with
      | error e2 =>
        rw [hrc] at hh
        simp only [Except.error.injEq] at hh
        obtain ⟨c, hc⟩ := removeCards_error_dup h d e2 hrc
        refine Or.inr ⟨c, ?_⟩
        rw [← hh]
        exact hc
      | ok d2 =>
        rw [hrc] at hh
        exact ih d2 e hh

theorem new_with_board_invalid_of : ∀ (hs : List Hand) (b : List Card),
    (hs.flatten ++ b).Nodup → (∃ h ∈ hs, h.length ≠ 2) → b.length ≤ 5 →
    new_with_board hs b = Except.error GameError.InvalidHandSize := by
  intro hs b hnd hbad hb
  rw [new_with_board, if_neg (by omega)]
  have hrh : removeHands Deck.default hs = Except.error GameError.InvalidHandSize :=
    removeHands_invalid_of hs Deck.default
      (List.Nodup.sublist (List.sublist_append_left _ _) hnd)
      (fun c hc => List.mem_finRange c) hbad
  rw [hrh]

/-- C6: constructor failures are atomic (an error produces no engine, and the
model is a pure function, so no partial state exists) and correctly
classified: a board of more than 5 cards yields `BoardTooLarge`; a hand
without exactly 2 cards yields `InvalidHandSize` (when no duplicate error
fires first, i.e. on duplicate-free inputs with a legal board; conversely the
error is only ever reported when such a hand exists); a repeated card yields
`DuplicateCard c` naming a card that really occurs at least twice across
hands and board combined (in both directions); and whenever a hand has the
wrong size or any card repeats, no engine is produced.  `new_with_hands` is
the board-less case of `new_with_board`. -/
theorem C6_constructor_errors :
    ∀ (hs : List Hand) (b : List Card),
    (b.length > 5 → new_with_board hs b = Except.error GameError.BoardTooLarge) ∧
    (new_with_board hs b = Except.error GameError.InvalidHandSize →
      ∃ h ∈ hs, h.length ≠ 2) ∧
    ((hs.flatten ++ b).Nodup → (∃ h ∈ hs, h.length ≠ 2) → b.length ≤ 5 →
      new_with_board hs b = Except.error GameError.InvalidHandSize) ∧
    (∀ c : Card, new_with_board hs b = Except.error (GameError.DuplicateCard c) →
      2 ≤ (hs.flatten ++ b).count c) ∧
    ((∀ h ∈ hs, h.length = 2) → ¬(hs.flatten ++ b).Nodup → b.length ≤ 5 →
      ∃ c, new_with_board hs b = Except.error (GameError.DuplicateCard c) ∧
        2 ≤ (hs.flatten ++ b).count c) ∧
    (((∃ h ∈ hs, h.length ≠ 2) ∨ ¬(hs.flatten ++ b).Nodup) →
      ∀ g : MonteCarloGame, new_with_board hs b ≠ Except.ok g) ∧
    new_with_hands hs = new_with_board hs [] := by
  intro hs b
  have hcount : ∀ c : Card, new_with_board hs b = Except.error (GameError.DuplicateCard c) →
      2 ≤ (hs.flatten ++ b).count c := by
    intro c herr
    rcases new_with_board_error_elim hs b _ herr with ⟨hbtl, _⟩ | ⟨_, hrh⟩ | ⟨_, d1, hok, hrc⟩
    · exact absurd hbtl (by simp)
    · obtain ⟨hmem, hcase⟩ := removeHands_error_count hs Deck.default c hrh
      rcases hcase with hcnt | hnd
      · rw [List.count_append]
        omega
      · exact absurd (List.mem_finRange c) hnd
    · obtain ⟨hmem, hcase⟩ := removeCards_error_count b d1 c hrc
      rcases hcase with hcnt | hnd
      · rw [List.count_append]
        have : 0 < b.count c := List.count_pos_iff.mpr hmem
        omega
      · have hpermh := removeHands_ok_perm hs Deck.default d1 hok
        have hcfull : c ∈ hs.flatten ++ d1 :=
          hpermh.mem_iff.mpr (List.mem_finRange c)
        have hcflat : c ∈ hs.flatten := by
          rcases List.mem_append.1 hcfull with h1 | h2
          · exact h1
          · exact absurd h2 hnd
        rw [List.count_append]
        have p1 : 0 < hs.flatten.count c := List.count_pos_iff.mpr hcflat
        have p2 : 0 < b.count c := List.count_pos_iff.mpr hmem
        omega
  have hnotok : ((∃ h ∈ hs, h.length ≠ 2) ∨ ¬(hs.flatten ++ b).Nodup) →
      ∀ g : MonteCarloGame, new_with_board hs b ≠ Except.ok g := by
    intro hbad g hok
    obtain ⟨_, _, _, hperm, _, hsizes⟩ := new_with_board_shape hs b g hok
    rcases hbad with ⟨h, hmem, hne2⟩ | hnotnodup
    · exact hne2 (hsizes h hmem)
    · have hnodup : (hs.flatten ++ (b ++ g.deck)).Nodup :=
        hperm.nodup_iff.mpr (List.nodup_finRange 52)
      have hnodup2 : ((hs.flatten ++ b) ++ g.deck).Nodup := by
        rw [List.append_assoc]
        exact hnodup
      exact hnotnodup (List.Nodup.sublist (List.sublist_append_left _ _) hnodup2)
  refine ⟨?_, ?_, ?_, hcount, ?_, hnotok, new_with_hands_eq_board hs⟩
  · intro hb
    rw [new_with_board, if_pos hb]
  · intro herr
    rcases new_with_board_error_elim hs b _ herr with ⟨hbtl, _⟩ | ⟨_, hrh⟩ | ⟨_, d1, _, hrc⟩
    · exact absurd hbtl (by simp)
    · exact removeHands_error_invalid hs Deck.default hrh
    · obtain ⟨c, hc⟩ := removeCards_error_dup b d1 _ hrc
      exact absurd hc (by simp)
  · exact new_with_board_invalid_of hs b
  · intro hall hnot hb
    cases hres : new_with_board hs b with
    | ok g => exact absurd hres (hnotok (Or.inr hnot) g)
    | error e =>
      rcases new_with_board_error_elim hs b e hres with ⟨_, hbgt⟩ | ⟨_, hrh⟩ | ⟨_, d1, _, hrc⟩
      · omega
      · rcases removeHands_error_cases hs Deck.default e hrh with heq | ⟨c, heq⟩
        · subst heq
          obtain ⟨h, hm, hne⟩ := removeHands_error_invalid hs Deck.default hrh
          exact absurd (hall h hm) hne
        · subst heq
          exact ⟨c, rfl, hcount c hres⟩
      · obtain ⟨c, heq⟩ := removeCards_error_dup b d1 e hrc
        subst heq
        exact ⟨c, rfl, hcount c hres⟩

/-- C6 witness: the classification evaluated at a concrete duplicated-card
input (hand `[0, 0]`). -/
theorem C6_witness :
    (([] : List Card).length > 5 →
      new_with_board [[(0 : Card), 0]] [] = Except.error GameError.BoardTooLarge) ∧
    (new_with_board [[(0 : Card), 0]] [] = Except.error GameError.InvalidHandSize →
      ∃ h ∈ [[(0 : Card), 0]], h.length ≠ 2) ∧
    (([[(0 : Card), 0]].flatten ++ []).Nodup →
      (∃ h ∈ [[(0 : Card), 0]], h.length ≠ 2) → ([] : List Card).length ≤ 5 →
      new_with_board [[(0 : Card), 0]] [] = Except.error GameError.InvalidHandSize) ∧
    (∀ c : Card, new_with_board [[(0 : Card), 0]] [] = Except.error (GameError.DuplicateCard c) →
      2 ≤ ([[(0 : Card), 0]].flatten ++ []).count c) ∧
    ((∀ h ∈ [[(0 : Card), 0]], h.length = 2) → ¬([[(0 : Card), 0]].flatten ++ []).Nodup →
      ([] : List Card).length ≤ 5 →
      ∃ c, new_with_board [[(0 : Card), 0]] [] = Except.error (GameError.DuplicateCard c) ∧
        2 ≤ ([[(0 : Card), 0]].flatten ++ []).count c) ∧
    (((∃ h ∈ [[(0 : Card), 0]], h.length ≠ 2) ∨ ¬([[(0 : Card), 0]].flatten ++ []).Nodup) →
      ∀ g : MonteCarloGame, new_with_board [[(0 : Card), 0]] [] ≠ Except.ok g) ∧
    new_with_hands [[(0 : Card), 0]] = new_with_board [[(0 : Card), 0]] [] :=
  C6_constructor_errors [[0, 0]] []

/-- C2: a successful `simulate` returns `(i, r)` where `r` is the evaluated
rank of hand `i` of that trial, `r` is ≥ the evaluated rank of every hand of
the trial, and whenever another hand ties at rank `r` its index is ≤ i: the
returned index is the greatest index among the tied hands. -/
theorem C2_winner_tiebreak {ρ : Type} [LinearOrder ρ] :
    ∀ (shuffle : List Card → List Card) (rank : List Card → ρ)
    (g g2 : MonteCarloGame) (i : Nat) (r : ρ),
    simulate shuffle rank g = some (g2, Except.ok (i, r)) →
    ∃ hi : i < g2.hands.length,
      rank (g2.hands.get ⟨i, hi⟩) = r ∧
      (∀ h ∈ g2.hands, rank h ≤ r) ∧
      (∀ j, ∀ hj : j < g2.hands.length, rank (g2.hands.get ⟨j, hj⟩) = r → j ≤ i) := by
  intro shuffle rank g g2 i r hsim
  obtain ⟨hne, hg2, hguard, hmax⟩ := simulate_ok_elim shuffle rank g g2 (i, r) hsim
  subst hg2
  have hmax2 : maxByKeyLast (((afterState shuffle g).hands.map rank).enum) = some (i, r) := hmax
  obtain ⟨hi, hget, hub, htie⟩ :=
    maxByKeyLast_enum_spec ((afterState shuffle g).hands.map rank) i r hmax2
  have hlenmap : ((afterState shuffle g).hands.map rank).length =
      (afterState shuffle g).hands.length := List.length_map _ _
  have hi2 : i < (afterState shuffle g).hands.length := by omega
  refine ⟨hi2, ?_, ?_, ?_⟩
  · rw [← hget]
    exact (get_map_at rank _ i hi hi2).symm
  · intro h hmem
    obtain ⟨n, hn⟩ := List.mem_iff_get.1 hmem
    have hn2 : n.1 < ((afterState shuffle g).hands.map rank).length := by
      have := n.2
      omega
    have hle := hub n.1 hn2
    rw [get_map_at rank _ n.1 hn2 n.2] at hle
    rw [← hn]
    exact hle
  · intro j hj hr
    have hj2 : j < ((afterState shuffle g).hands.map rank).length := by omega
    refine htie j hj2 ?_
    rw [get_map_at rank _ j hj2 hj]
    exact hr

/-- C2 witness: two hands evaluated by a constant rank are tied; the returned
index is 1, the greatest among the tied hands, and the returned rank bounds
both. -/
theorem C2_witness :
    ∃ hi : (1 : Nat) < tieGame2.hands.length,
      (fun h : List Card => (0 : Nat)) (tieGame2.hands.get ⟨1, hi⟩) = 0 ∧
      (∀ h ∈ tieGame2.hands, (fun h : List Card => (0 : Nat)) h ≤ 0) ∧
      (∀ j, ∀ hj : j < tieGame2.hands.length,
        (fun h : List Card => (0 : Nat)) (tieGame2.hands.get ⟨j, hj⟩) = 0 → j ≤ 1) :=
  C2_winner_tiebreak id (fun h : List Card => (0 : Nat)) tieGame tieGame2 1 0 rfl

theorem reset_deck (g : MonteCarloGame) : (reset g).deck = g.deck := rfl

theorem reset_board (g : MonteCarloGame) : (reset g).board = g.board := rfl

theorem reset_offset (g : MonteCarloGame) : (reset g).current_offset = g.current_offset := rfl

theorem afterState_deck (shuffle : List Card → List Card) (g : MonteCarloGame) :
    (afterState shuffle g).deck = (shuffle_if_needed shuffle g.deck g.current_offset).1 := rfl

theorem afterState_board (shuffle : List Card → List Card) (g : MonteCarloGame) :
    (afterState shuffle g).board = g.board := rfl

theorem afterState_offset (shuffle : List Card → List Card) (g : MonteCarloGame) :
    (afterState shuffle g).current_offset =
      (shuffle_if_needed shuffle g.deck g.current_offset).2 + (5 - g.board.length) := rfl

/-- C1 counterexample: 24 hands of 2 distinct cards each pass validation, so
the constructor succeeds, but the pool then holds only 4 cards; on the very
first `simulate` the availability check reshuffles and resets the cursor to
0, yet the five-card slice `[0, 5)` exceeds the 4-card pool: the Rust code
panics (modelled as `none`), refuting the claim for "any number of validated
hands". -/
theorem C1_counterexample :
    (new_with_hands hands24).toOption.map
      (fun g => simulate id (fun h : List Card => h.length) g) = some none := by
  rfl

/-- C1 amended: the in-bounds property holds for every engine built from at
most 23 hands (then `2·hands + 5 ≤ 52 - board`, so the pool always covers the
needed slice).  The constructor establishes `poolSufficient`; from any
`poolSufficient` state `simulate` never accesses the pool out of bounds
(never returns the panic marker `none`); and `simulate` (with a
length-preserving shuffle) and `reset` both preserve `poolSufficient`, so the
guarantee extends to every later call on the same engine. -/
theorem C1_inbounds_bounded_hands {ρ : Type} [LinearOrder ρ] :
    ∀ (shuffle : List Card → List Card) (rank : List Card → ρ)
    (hs : List Hand) (b : List Card) (g0 g : MonteCarloGame),
    (∀ l : List Card, (shuffle l).length = l.length) →
    new_with_board hs b = Except.ok g0 → hs.length ≤ 23 →
    poolSufficient g0 ∧
    (poolSufficient g → simulate shuffle rank g ≠ none) ∧
    (poolSufficient g → ∀ (g2 : MonteCarloGame) (res : Except GameError (Nat × ρ)),
      simulate shuffle rank g = some (g2, res) → poolSufficient g2) ∧
    (poolSufficient g → poolSufficient (reset g)) := by
  intro shuffle rank hs b g0 g hlen hctor hn
  have hguard : ∀ g' : MonteCarloGame, poolSufficient g' →
      (shuffle_if_needed shuffle g'.deck g'.current_offset).2 + (5 - g'.board.length) ≤
        ((shuffle_if_needed shuffle g'.deck g'.current_offset).1).length := by
    intro g' hps
    rw [poolSufficient] at hps
    by_cases hc : g'.current_offset + 5 > g'.deck.length
    · rw [shuffle_if_needed_pos shuffle g'.deck g'.current_offset hc]
      show 0 + (5 - g'.board.length) ≤ (shuffle g'.deck).length
      rw [hlen g'.deck]
      omega
    · rw [shuffle_if_needed_neg shuffle g'.deck g'.current_offset hc]
      show g'.current_offset + (5 - g'.board.length) ≤ g'.deck.length
      omega
  refine ⟨?_, ?_, ?_, ?_⟩
  · obtain ⟨hb, _, _, _, _, _⟩ := new_with_board_shape hs b g0 hctor
    have hdl := new_with_board_deck_length hs b g0 hctor
    rw [poolSufficient, hb]
    omega
  · intro hps
    exact simulate_ne_none_of shuffle rank g (Or.inr (hguard g hps))
  · intro hps g2 res hsim
    rcases simulate_some_cases shuffle rank g g2 res hsim with ⟨_, hg2, _⟩ | ⟨_, hg2, _, _⟩
    · subst hg2
      exact hps
    · subst hg2
      rw [poolSufficient] at hps ⊢
      rw [afterState_board, afterState_deck]
      by_cases hc : g.current_offset + 5 > g.deck.length
      · rw [shuffle_if_needed_pos shuffle g.deck g.current_offset hc]
        show 5 - g.board.length ≤ (shuffle g.deck).length
        rw [hlen g.deck]
        exact hps
      · rw [shuffle_if_needed_neg shuffle g.deck g.current_offset hc]
        exact hps
  · intro hps
    exact hps

/-- C1 witness: the one-hand engine `sampleGame` satisfies the amended
conclusion with the identity shuffle. -/
theorem C1_witness :
    poolSufficient sampleGame ∧
    (poolSufficient sampleGame →
      simulate id (fun h : List Card => h.length) sampleGame ≠ none) ∧
    (poolSufficient sampleGame → ∀ (g2 : MonteCarloGame) (res : Except GameError (Nat × Nat)),
      simulate id (fun h : List Card => h.length) sampleGame = some (g2, res) →
      poolSufficient g2) ∧
    (poolSufficient sampleGame → poolSufficient (reset sampleGame)) :=
  C1_inbounds_bounded_hands id (fun h : List Card => h.length) [[0, 1]] [] sampleGame
    sampleGame (fun l => rfl) rfl (by decide)

/-- C4: across consecutive trials on the same engine, as long as the second
trial does not reshuffle, the index ranges consumed are disjoint: no card
drawn from a duplicate-free pool by the first trial is drawn again by the
next trial (`reset` in between), and a drawn card is never a board card or
any hand's hole card (given the construction disjointness of pool, board and
hands). -/
theorem C4_no_redeal_within_epoch {ρ : Type} [LinearOrder ρ] :
    ∀ (shuffle : List Card → List Card) (rank : List Card → ρ)
    (g g2 : MonteCarloGame) (w : Nat × ρ),
    (∀ l : List Card, (shuffle l).Perm l) →
    g.deck.Nodup →
    (∀ c ∈ g.deck, c ∉ g.board ∧ ∀ h ∈ g.hands, c ∉ h) →
    simulate shuffle rank g = some (g2, Except.ok w) →
    (reset g2).current_offset + 5 ≤ ((reset g2).deck).length →
    (∀ c ∈ drawnCards shuffle (reset g2), c ∉ drawnCards shuffle g) ∧
    (∀ g3 : MonteCarloGame, g3.deck = (reset g2).deck → g3.board = g.board →
      (reset g2).current_offset ≤ g3.current_offset →
      ¬(g3.current_offset + 5 > g3.deck.length) →
      ∀ c ∈ drawnCards shuffle g3, c ∉ drawnCards shuffle g) ∧
    (∀ c ∈ drawnCards shuffle g, c ∉ g.board ∧ ∀ h ∈ g.hands, c ∉ h) := by
  intro shuffle rank g g2 w hperm hnodup hdisj hsim hnosh
  obtain ⟨hne, hg2, hguard, _⟩ := simulate_ok_elim shuffle rank g g2 w hsim
  subst hg2
  have hdperm : ((shuffle_if_needed shuffle g.deck g.current_offset).1).Perm g.deck :=
    shuffle_if_needed_perm shuffle hperm g.deck g.current_offset
  have hdnodup : ((shuffle_if_needed shuffle g.deck g.current_offset).1).Nodup :=
    hdperm.nodup_iff.mpr hnodup
  rw [reset_offset, reset_deck, afterState_offset, afterState_deck] at hnosh
  have hrw : drawnCards shuffle (reset (afterState shuffle g)) =
      (((shuffle_if_needed shuffle g.deck g.current_offset).1).drop
        ((shuffle_if_needed shuffle g.deck g.current_offset).2 + (5 - g.board.length))).take
        (5 - g.board.length) := by
    rw [drawnCards, reset_deck, reset_board, reset_offset, afterState_deck,
      afterState_board, afterState_offset,
      shuffle_if_needed_neg shuffle _ _ (by omega)]
  refine ⟨?_, ?_, ?_⟩
  · rw [hrw, drawnCards]
    exact take_drop_disjoint _ _ _ _ _ hdnodup (Nat.le_refl _)
  · intro g3 hdeck hboard hoff hnosh3 c hc
    have hrw3 : drawnCards shuffle g3 =
        (((shuffle_if_needed shuffle g.deck g.current_offset).1).drop
          g3.current_offset).take (5 - g.board.length) := by
      rw [drawnCards,
        shuffle_if_needed_neg shuffle g3.deck g3.current_offset (by omega), hdeck,
        reset_deck, afterState_deck, hboard]
    rw [hrw3] at hc
    rw [drawnCards]
    rw [reset_offset, afterState_offset] at hoff
    exact take_drop_disjoint _ _ _ _ _ hdnodup (by omega) c hc
  · intro c hc
    have hcdeck : c ∈ g.deck := by
      apply hdperm.mem_iff.mp
      rw [drawnCards] at hc
      exact (List.drop_sublist _ _).subset ((List.take_sublist _ _).subset hc)
    exact hdisj c hcdeck

/-- C4 witness: the one-hand engine `sampleGame` with identity shuffle: the
second trial's five cards avoid the first trial's five, and no drawn card is
a hole or board card. -/
theorem C4_witness :
    (∀ c ∈ drawnCards id (reset sampleGame2), c ∉ drawnCards id sampleGame) ∧
    (∀ g3 : MonteCarloGame, g3.deck = (reset sampleGame2).deck →
      g3.board = sampleGame.board →
      (reset sampleGame2).current_offset ≤ g3.current_offset →
      ¬(g3.current_offset + 5 > g3.deck.length) →
      ∀ c ∈ drawnCards id g3, c ∉ drawnCards id sampleGame) ∧
    (∀ c ∈ drawnCards id sampleGame,
      c ∉ sampleGame.board ∧ ∀ h ∈ sampleGame.hands, c ∉ h) :=
  C4_no_redeal_within_epoch id (fun h : List Card => h.length) sampleGame sampleGame2
    (0, 7) (fun l => List.Perm.refl l) (by decide) (by decide) rfl (by decide)
